import Mathlib

/-!
Verification of the KeenClassik native test harness
(`src/tests/native/keen_test_harness.c`) and its max-flow collaborator
contract (`src/tests/native/maxflow_test.c`).

The C sources are shallowly embedded: C strings become `List Char`,
machine integers become `Nat`/`Int` with exact arithmetic where the C
computation stays in range, and the retry loops become fuel-indexed
structural recursion with the fuel chosen to match the C bounds.
-/

/-- Modelled from the spec: `MAX_CLUE_VALUE` is declared in `keen.h`,
which is not part of the excerpt; the spec fixes it at 99999. -/
def MAX_CLUE_VALUE : Nat := 99999

/-- `MAX_ATTEMPTS` from the harness (`#define MAX_ATTEMPTS 25`). -/
def MAX_ATTEMPTS : Nat := 25

/-- C `isdigit` on the default locale, over the character's code point. -/
def isDigitC (c : Char) : Bool := 48 ≤ c.toNat && c.toNat ≤ 57

/-- C `isalpha` on the default locale (ASCII letters). -/
def isAlphaC (c : Char) : Bool :=
  (65 ≤ c.toNat && c.toNat ≤ 90) || (97 ≤ c.toNat && c.toNat ≤ 122)

/-- C `isspace` on the default locale: space and the control
characters 9..13 (tab, newline, vertical tab, form feed, return). -/
def isSpaceC (c : Char) : Bool := c.toNat == 32 || (9 ≤ c.toNat && c.toNat ≤ 13)

/-- Digit accumulation loop of C `atoi`: consume leading decimal digits,
folding them into `acc`; stop at the first non-digit. -/
def atoiDigits : List Char → Nat → Nat
  | [], acc => acc
  | c :: rest, acc =>
      if isDigitC c then atoiDigits rest (acc * 10 + (c.toNat - 48)) else acc

/-- C `atoi`: skip leading whitespace, consume one optional sign,
then a digit run; the value is exact here (the harness only applies
`atoi` to 5-character fields, which cannot overflow `int`). -/
def atoi (cs : List Char) : Int :=
  match cs.dropWhile isSpaceC with
  | [] => 0
  | c :: rest =>
      if c = '-' then - (atoiDigits rest 0 : Int)
      else if c = '+' then (atoiDigits rest 0 : Int)
      else (atoiDigits (c :: rest) 0 : Int)

/-- `strchr(desc, ';')` as a splitter: the part strictly before the first
`';'` and the part strictly after it, or `none` when no `';'` occurs. -/
def splitSem : List Char → Option (List Char × List Char)
  | [] => none
  | c :: rest =>
      if c = ';' then some ([], rest)
      else (splitSem rest).map (fun pr => (c :: pr.1, pr.2))

/-- The clue-scanning loop of `clue_values_within_cap`, operating on the
characters after the `';'`: each entry is one operator character (must be
alphabetic), a 5-character value field run through `atoi` and compared
against `MAX_CLUE_VALUE`, then either a comma, or end of string. -/
def clueLoop : List Char → Bool
  | [] => true
  | op :: c1 :: c2 :: c3 :: c4 :: c5 :: rest =>
      if !isAlphaC op then false
      else if (MAX_CLUE_VALUE : Int) < atoi [c1, c2, c3, c4, c5] then false
      else
        match rest with
        | [] => true
        | c :: rest2 => if c = ',' then clueLoop rest2 else false
  | _ :: _ => false

/-- `clue_values_within_cap` from the harness: find the `';'` separator
(fail if absent) and scan the clue list after it. -/
def clue_values_within_cap (cs : List Char) : Bool :=
  match splitSem cs with
  | none => false
  | some pr => clueLoop pr.2

/-- The digit-run reader inside `parse_root_indices`: consume digits
(bounded by the separator, i.e. by the end of the given list),
returning the value, the number of digits read, and the rest.  The C
accumulator is a 32-bit `int`: overflow is undefined behavior, realized
on the reference platforms as two's-complement wraparound (which the
parser's own `val < 0` guard anticipates), so the accumulation is
modelled as the 32-bit pattern, reduced modulo `2^32` at every step. -/
def readDigits : List Char → Nat → Nat → Nat × Nat × List Char
  | [], val, digits => (val, digits, [])
  | c :: rest, val, digits =>
      if isDigitC c then
        readDigits rest ((val * 10 + (c.toNat - 48)) % 2 ^ 32) (digits + 1)
      else (val, digits, c :: rest)

/-- The entry loop of `parse_root_indices` over the part before the `';'`:
read `n` root entries; every entry is a nonempty digit run whose
(int-wrapped) value passes `digits == 0 || val < 0 || val >= a`; with
the value modelled as the 32-bit pattern, `val < 0` is `2^31 ≤ pattern`
and, on the remaining non-negative range, `val >= a` is the plain `Nat`
comparison (every caller has `a = w*w < 2^31`).  Entries other than the
last are followed by a comma; after the last entry the position must be
exactly the separator. -/
def rootsLoop (a : Nat) : Nat → List Char → Option (List Nat)
  | 0, cs => if cs = [] then some [] else none
  | n + 1, cs =>
      let t := readDigits cs 0 0
      if t.2.1 = 0 ∨ 2 ^ 31 ≤ t.1 ∨ a ≤ t.1 then none
      else
        match n with
        | 0 => if t.2.2 = [] then some [t.1] else none
        | m + 1 =>
            match t.2.2 with
            | [] => none
            | c :: r2 =>
                if c = ',' then (rootsLoop a (m + 1) r2).map (fun vs => t.1 :: vs)
                else none

/-- `parse_root_indices` from the harness: split at the first `';'`
and parse `w*w` comma-separated root indices from the prefix. -/
def parse_root_indices (w : Nat) (cs : List Char) : Option (List Nat) :=
  match splitSem cs with
  | none => none
  | some pr => rootsLoop (w * w) (w * w) pr.1

/-- Indices `i` with `roots[i] == i`, in ascending order — the cells the
`parse_ops` loop stops at (one clue entry is consumed per such cell). -/
def selfRoots (roots : List Nat) : List Nat :=
  (roots.enum.filter (fun p => decide (p.2 = p.1))).map (fun p => p.1)

/-- `if (*p == ',') p++` — skip one separating comma when present. -/
def skipComma : List Char → List Char
  | [] => []
  | c :: r => if c = ',' then r else c :: r

/-- The clue-consuming loop of `parse_ops`: for each of the `n` cage
roots, read one operator character (fail at end of string), then exactly
five decimal digits, then skip one comma if present. -/
def opsLoop : Nat → List Char → Option (List Char)
  | 0, _ => some []
  | n + 1, cs =>
      match cs with
      | [] => none
      | op :: rest =>
          if (rest.take 5).length = 5 && (rest.take 5).all isDigitC then
            (opsLoop n (skipComma (rest.drop 5))).map (fun os => op :: os)
          else none

/-- `parse_ops` from the harness: split at the first `';'` and read one
operator per cage root from the suffix; trailing characters after the
final consumed entry are ignored, as in the C loop.  The grid width of
the C signature is implicit here in the length of `roots`. -/
def parse_ops (roots : List Nat) (cs : List Char) : Option (List Char) :=
  match splitSem cs with
  | none => none
  | some pr => opsLoop (selfRoots roots).length pr.2

/-- The `ops` array written by `parse_ops` in `test_combination`:
`'\0'`-initialised, with the parsed operator at each cage-root index. -/
def opsFun (roots : List Nat) (ops : List Char) : Nat → Char := fun i =>
  match ((selfRoots roots).zip ops).find? (fun p => decide (p.1 = i)) with
  | some p => p.2
  | none => Char.ofNat 0

/-- One `counts[r]++` step of the counting loops. -/
def bumpCounts (counts : Nat → Nat) (r : Nat) : Nat → Nat :=
  fun x => if x = r then counts r + 1 else counts x

/-- The plain counting loop (`for i: counts[roots[i]]++`) shared by
`cage_sizes_within_limit` and `mult_cages_within_limit`. -/
def countsOf : List Nat → (Nat → Nat) → (Nat → Nat)
  | [], counts => counts
  | r :: rest, counts => countsOf rest (bumpCounts counts r)

/-- The counting loop of `cage_sizes_within_limit`, which also tracks the
running maximum count. -/
def cageLoop : List Nat → (Nat → Nat) → Nat → ((Nat → Nat) × Nat)
  | [], counts, mx => (counts, mx)
  | r :: rest, counts, mx =>
      let c := counts r + 1
      cageLoop rest (bumpCounts counts r) (if mx < c then c else mx)

/-- `cage_sizes_within_limit` from the harness: count the cells of each
cage, report the largest cage through the second component (`*max_seen`),
and succeed iff it does not exceed `max_size`. -/
def cage_sizes_within_limit (roots : List Nat) (max_size : Nat) : Bool × Nat :=
  let mx := (cageLoop roots (fun _ => 0) 0).2
  (decide (mx ≤ max_size), mx)

/-- `mult_cages_within_limit` from the harness: no cage root `i` with
operator `'m'` may have a cell count above `max_mul`. -/
def mult_cages_within_limit (roots : List Nat) (opsAt : Nat → Char)
    (max_mul : Nat) : Bool :=
  let counts := countsOf roots (fun _ => 0)
  roots.enum.all (fun p =>
    !(decide (p.2 = p.1) && decide (opsAt p.1 = 'm') && decide (max_mul < counts p.1)))

/-- `max_mul_cells_for_size`: the guarded multiplication loop
(`while (val <= MAX_CLUE_VALUE / w) val *= w, cells++`), with fuel 17
(sufficient for every `w ≥ 2`, since `2^17 > MAX_CLUE_VALUE`). -/
def mulCellsLoop (w : Nat) : Nat → Nat → Nat → Nat
  | 0, _, cells => cells
  | fuel + 1, val, cells =>
      if val ≤ MAX_CLUE_VALUE / w then mulCellsLoop w fuel (val * w) (cells + 1)
      else cells

/-- `max_mul_cells_for_size` from the harness. -/
def max_mul_cells_for_size (w : Nat) : Nat := mulCellsLoop w 17 1 0

/-- The `game_params` record set up by `test_combination`. -/
structure GameParams where
  w : Nat
  diff : Nat
  multiplication_only : Nat
  mode_flags : Nat
  profile : Nat
deriving DecidableEq

/-- The parameters `test_combination` passes to the generator:
`multiplication_only = 0` and `mode_flags = 0` are hard-coded. -/
def mkParams (w diff profile : Nat) : GameParams :=
  { w := w, diff := diff, multiplication_only := 0, mode_flags := 0, profile := profile }

/-- The seed string `snprintf(seed_str, .., "test_%u_%d_%d",
base_seed + (unsigned)puzzle, puzzle, attempts)`; the first field is
unsigned 32-bit arithmetic, hence the reduction modulo `2^32`. -/
def seedString (base_seed puzzle attempts : Nat) : List Char :=
  "test_".data ++ (Nat.repr ((base_seed + puzzle) % 2 ^ 32)).data ++
    "_".data ++ (Nat.repr puzzle).data ++ "_".data ++ (Nat.repr attempts).data

/-- The per-attempt acceptance pipeline of `test_combination`: a `none`
descriptor fails; otherwise the clue cap is checked, then — only when a
cage-size or multiplication cap is enabled — the roots are parsed, the
cage-size cap is checked when enabled, and the multiplication cap
(with `parse_ops`) is checked when enabled. -/
def attemptAccepts (w mc mm : Nat) : Option (List Char) → Bool
  | none => false
  | some d =>
      if clue_values_within_cap d = false then false
      else if 0 < mc ∨ 0 < mm then
        match parse_root_indices w d with
        | none => false
        | some roots =>
            if 0 < mc ∧ (cage_sizes_within_limit roots mc).1 = false then false
            else if 0 < mm then
              match parse_ops roots d with
              | none => false
              | some ops => mult_cages_within_limit roots (opsFun roots ops) mm
            else true
      else true

/-- Modelled from the spec: `random_new` and `new_game_desc` are external
collaborators (not in the excerpt).  The spec requires them to be
deterministic in the seed string and parameters, so one generation
attempt is a pure function of `(params, seed string)`; a `none` result
models both a NULL random state and a NULL descriptor. -/
def runAttempt (gen : GameParams → List Char → Option (List Char))
    (b w diff prof p att : Nat) : Option (List Char) :=
  gen (mkParams w diff prof) (seedString b p att)

/-- Whole-attempt outcome: generate, then run the validator pipeline. -/
def attemptOk (gen : GameParams → List Char → Option (List Char))
    (b w diff prof mc mm p att : Nat) : Bool :=
  attemptAccepts w mc mm (runAttempt gen b w diff prof p att)

/-- The retry loop `while (!success && attempts < MAX_ATTEMPTS)` of
`test_combination`, with `fuel = MAX_ATTEMPTS - attempts`: each
iteration first increments the attempt counter, then runs the attempt. -/
def sampleLoop (f : Nat → Bool) : Nat → Nat → Bool × Nat
  | attempts, 0 => (false, attempts)
  | attempts, fuel + 1 =>
      if f (attempts + 1) then (true, attempts + 1)
      else sampleLoop f (attempts + 1) fuel

/-- One sample's retry loop, started at zero attempts with the full
`MAX_ATTEMPTS` budget; returns (success flag, attempt count). -/
def runSample (f : Nat → Bool) : Bool × Nat := sampleLoop f 0 MAX_ATTEMPTS

/-- Success flag and attempt count for sample `p` of a combination. -/
def sampleResult (gen : GameParams → List Char → Option (List Char))
    (b w diff prof mc mm p : Nat) : Bool × Nat :=
  runSample (attemptOk gen b w diff prof mc mm p)

/-- The descriptor sample `p` was accepted with, when it was accepted:
the output of the generation attempt at the recorded attempt count. -/
def acceptedDesc (gen : GameParams → List Char → Option (List Char))
    (b w diff prof mc mm p : Nat) : Option (List Char) :=
  let r := sampleResult gen b w diff prof mc mm p
  if r.1 then runAttempt gen b w diff prof p r.2 else none

/-- The aggregate counters of `TestResult` that the harness mutates in
its per-puzzle loop. -/
structure TestResult where
  successes : Nat
  failures : Nat
  attempts : Nat
deriving DecidableEq

/-- The per-puzzle loop of `test_combination` over the first `n`
samples: each sample runs its retry loop and then bumps exactly one of
the success/failure counters, plus the cumulative attempt counter. -/
def comboLoop (g : Nat → Bool × Nat) : Nat → TestResult
  | 0 => { successes := 0, failures := 0, attempts := 0 }
  | n + 1 =>
      let acc := comboLoop g n
      let r := g n
      { successes := acc.successes + (if r.1 then 1 else 0),
        failures := acc.failures + (if r.1 then 0 else 1),
        attempts := acc.attempts + r.2 }

/-- `test_combination` from the harness, restricted to the counters the
claims are about (timing is outside the model). -/
def test_combination (gen : GameParams → List Char → Option (List Char))
    (w diff prof mc mm puzzles b : Nat) : TestResult :=
  comboLoop (fun p => sampleResult gen b w diff prof mc mm p) puzzles

/-- A concrete well-formed 3×3 descriptor: nine singleton cages, each an
addition cage with value 1. -/
def demoDesc : List Char :=
  ("0,1,2,3,4,5,6,7,8;" ++
   "a00001,a00001,a00001,a00001,a00001,a00001,a00001,a00001,a00001").data

/-- A generator stub that always returns `demoDesc`. -/
def demoGen : GameParams → List Char → Option (List Char) := fun _ _ => some demoDesc

/-- Modelled from the spec: the Grid/Cage Generator (`new_game_desc`,
not in the excerpt) produces descriptors whose root field is an
idempotent partition — `roots[roots[i]] == roots[i]` for all `i` (§3). -/
def GenRootsIdempotent (gen : GameParams → List Char → Option (List Char))
    (w : Nat) : Prop :=
  ∀ prm seed d roots, gen prm seed = some d →
    parse_root_indices w d = some roots →
    ∀ i, i < roots.length → roots.getD (roots.getD i 0) 0 = roots.getD i 0

/-- A generator stub that always fails. -/
def genA : GameParams → List Char → Option (List Char) := fun _ _ => none

/-- A generator stub that fails on every nonempty seed string; it agrees
with `genA` on every seed the orchestrator actually derives. -/
def genB : GameParams → List Char → Option (List Char) :=
  fun _ s => if s = [] then some [] else none

/-- Maximum of a list of naturals (0 for the empty list). -/
def listMax (l : List Nat) : Nat := l.foldr max 0

/-- The clue scan of `clue_values_within_cap` with the value-cap branch
(`if (val > MAX_CLUE_VALUE) return false`) deleted — the reference point
for showing that branch unreachable. -/
def clueLoopNoCap : List Char → Bool
  | [] => true
  | op :: _ :: _ :: _ :: _ :: _ :: rest =>
      if !isAlphaC op then false
      else
        match rest with
        | [] => true
        | c :: rest2 => if c = ',' then clueLoopNoCap rest2 else false
  | _ :: _ => false

/-- `clue_values_within_cap` with the value-cap branch deleted: only the
structural checks (separator, alphabetic operator, five remaining
characters, entry termination) remain. -/
def clue_values_structural (cs : List Char) : Bool :=
  match splitSem cs with
  | none => false
  | some pr => clueLoopNoCap pr.2

/-- Modelled from the spec: the residual-capacity table of the flow
network, built from the edge list `(from, to, capacity)`; the solver
itself (`maxflow_optimized.c`) is not part of the excerpt, so the model
follows §4.1: shortest augmenting paths by breadth-first search over the
residual graph, paired back-edges, until no augmenting path remains. -/
def initRes (edges : List (Nat × Nat × Nat)) : Nat → Nat → Nat :=
  edges.foldr
    (fun e r => fun x y =>
      if x = e.1 ∧ y = e.2.1 then r x y + e.2.2 else r x y)
    (fun _ _ => 0)

/-- Keep only the first discovery of each vertex during one BFS layer. -/
def dedupKeys : List (Nat × Nat) → List Nat → List (Nat × Nat)
  | [], _ => []
  | p :: rest, seen =>
      if seen.contains p.1 then dedupKeys rest seen
      else p :: dedupKeys rest (p.1 :: seen)

/-- One breadth-first layer: all residual-positive, unvisited successors
of the frontier, each recorded with its parent. -/
def bfsLayer (n : Nat) (res : Nat → Nat → Nat) (visited frontier : List Nat) :
    List (Nat × Nat) :=
  dedupKeys
    (frontier.flatMap (fun u =>
      ((List.range n).filter
        (fun v => decide (0 < res u v) && !(visited.contains v))).map
        (fun v => (v, u))))
    []

/-- Breadth-first search for the sink, layer by layer; returns the
child-to-parent assignment once the sink is discovered. -/
def bfsLoop (n : Nat) (res : Nat → Nat → Nat) (t : Nat) :
    Nat → List Nat → List Nat → List (Nat × Nat) → Option (List (Nat × Nat))
  | 0, _, _, _ => none
  | fuel + 1, frontier, visited, parents =>
      let np := bfsLayer n res visited frontier
      if np = [] then none
      else if (np.map (fun p => p.1)).contains t then some (parents ++ np)
      else bfsLoop n res t fuel (np.map (fun p => p.1))
        (visited ++ np.map (fun p => p.1)) (parents ++ np)

/-- Shortest augmenting path search from `s` to `t`. -/
def bfs (n : Nat) (res : Nat → Nat → Nat) (s t : Nat) : Option (List (Nat × Nat)) :=
  bfsLoop n res t n [s] [s] []

/-- Follow the parent assignment from `v` back to the source. -/
def buildPath (parents : List (Nat × Nat)) (s : Nat) : Nat → Nat → List Nat
  | 0, v => [v]
  | fuel + 1, v =>
      if v = s then [v]
      else
        match parents.find? (fun p => decide (p.1 = v)) with
        | some p => v :: buildPath parents s fuel p.2
        | none => [v]

/-- Consecutive vertex pairs (the edges) of a path. -/
def pathPairs : List Nat → List (Nat × Nat)
  | [] => []
  | [_] => []
  | u :: v :: rest => (u, v) :: pathPairs (v :: rest)

/-- Bottleneck residual capacity along a path. -/
def bottleneck (res : Nat → Nat → Nat) (ps : List (Nat × Nat)) : Nat :=
  match ps.map (fun p => res p.1 p.2) with
  | [] => 0
  | x :: xs => xs.foldr min x

/-- Push `b` units along the path: forward residuals shrink, the paired
back-edges grow, so flow can be pushed back later. -/
def augment (res : Nat → Nat → Nat) (ps : List (Nat × Nat)) (b : Nat) :
    Nat → Nat → Nat :=
  ps.foldr
    (fun p r => fun x y =>
      if x = p.1 ∧ y = p.2 then r x y - b
      else if x = p.2 ∧ y = p.1 then r x y + b
      else r x y)
    res

/-- Repeated augmentation until breadth-first search finds no path. -/
def maxflowLoop (n s t : Nat) : Nat → (Nat → Nat → Nat) → Nat → Nat
  | 0, _, acc => acc
  | fuel + 1, res, acc =>
      match bfs n res s t with
      | none => acc
      | some parents =>
          let path := (buildPath parents s n t).reverse
          let ps := pathPairs path
          let b := bottleneck res ps
          maxflowLoop n s t fuel (augment res ps b) (acc + b)

/-- Modelled from the spec: the maximum-flow value computed by the flow
solver (§4.1) — fuel equal to the total capacity plus one suffices,
since every augmentation moves at least one unit. -/
def maxflow (n : Nat) (edges : List (Nat × Nat × Nat)) (s t : Nat) : Nat :=
  maxflowLoop n s t (edges.foldr (fun e acc => acc + e.2.2) 0 + 1) (initRes edges) 0

/-- The diamond network of `test_diamond` in `maxflow_test.c`. -/
def diamondEdges : List (Nat × Nat × Nat) :=
  [(0, 1, 10), (0, 2, 10), (1, 2, 1), (1, 3, 10), (2, 3, 10)]

/-- The value of a digit run, accumulated left to right as the C loop
`val = val * 10 + (*p - '0')` does — as in `readDigits`, the `int`
accumulator is modelled as its 32-bit pattern, wrapped at each step. -/
def digAccum (run : List Char) (val : Nat) : Nat :=
  run.foldl (fun acc c => (acc * 10 + (c.toNat - 48)) % 2 ^ 32) val

/-- The exact mathematical value of a decimal digit run — the number the
spec's wire format (§6) denotes by the token, independent of any machine
width.  Used to state how the int-wrapped parser diverges from it. -/
def digitRunValue (run : List Char) : Nat :=
  run.foldl (fun acc c => acc * 10 + (c.toNat - 48)) 0

/-- A 3×3 descriptor whose first root token denotes 4294967296 = 2^32:
far outside `[0, 9)`, yet its 32-bit pattern wraps to 0. -/
def overflowDesc : List Char :=
  ("4294967296,1,2,3,4,5,6,7,8;" ++
   "a00001,a00001,a00001,a00001,a00001,a00001,a00001,a00001,a00001").data

/-- Wire form of the roots field (spec §6): digit runs joined by single
commas. -/
def joinRuns : List (List Char) → List Char
  | [] => []
  | [r] => r
  | r :: s :: rs => r ++ ',' :: joinRuns (s :: rs)

/-- Wire form of the clue field (spec §6): operator plus 5-character
value entries joined by commas, with an optionally accepted trailing
comma. -/
def joinClues : List (Char × List Char) → Bool → List Char
  | [], _ => []
  | [(op, f)], trailing => op :: (f ++ (if trailing then [','] else []))
  | (op, f) :: s :: rest, trailing => op :: (f ++ ',' :: joinClues (s :: rest) trailing)

/-- Decomposition of the clue field as `parse_ops` consumes it:
operator, five digits, the separator actually present (`[]` or a single
comma), then whatever follows the last consumed entry. -/
def joinOps : List (Char × List Char × List Char) → List Char → List Char
  | [], rest => rest
  | s :: segs, rest => s.1 :: (s.2.1 ++ s.2.2 ++ joinOps segs rest)

example : max_mul_cells_for_size 3 = 10 := by decide

example : max_mul_cells_for_size 9 = 5 := by decide

theorem mulCellsLoop_spec : ∀ (fuel w val cells : Nat), 2 ≤ w → 1 ≤ val →
    val ≤ MAX_CLUE_VALUE → MAX_CLUE_VALUE < val * w ^ fuel →
    ∃ k, mulCellsLoop w fuel val cells = cells + k ∧
      val * w ^ k ≤ MAX_CLUE_VALUE ∧ MAX_CLUE_VALUE < val * w ^ (k + 1) := by
  intro fuel
  induction fuel with
  | zero =>
      intro w val cells hw hval hcap hbig
      simp [pow_zero] at hbig
      omega
  | succ fuel ih =>
      intro w val cells hw hval hcap hbig
      by_cases hguard : val ≤ MAX_CLUE_VALUE / w
      · have hmul : val * w ≤ MAX_CLUE_VALUE :=
          (Nat.le_div_iff_mul_le (by omega)).mp hguard
        have hbig2 : MAX_CLUE_VALUE < (val * w) * w ^ fuel := by
          have : val * w ^ (fuel + 1) = (val * w) * w ^ fuel := by ring
          omega
        obtain ⟨k, hk, hle, hgt⟩ :=
          ih w (val * w) (cells + 1) hw
            (Nat.mul_pos (by omega) (by omega)) hmul hbig2
        refine ⟨k + 1, ?_, ?_, ?_⟩
        · simp [mulCellsLoop, hguard, hk]
          omega
        · have : val * w ^ (k + 1) = (val * w) * w ^ k := by ring
          omega
        · have : val * w ^ (k + 1 + 1) = (val * w) * w ^ (k + 1) := by ring
          omega
      · have hmul : MAX_CLUE_VALUE < val * w := by
          by_contra hcon
          exact hguard ((Nat.le_div_iff_mul_le (by omega)).mpr (by omega))
        refine ⟨0, ?_, ?_, ?_⟩
        · simp [mulCellsLoop, hguard]
        · simpa [pow_zero] using hcap
        · simpa [pow_one] using hmul

/-- C2: for every grid width `w ≥ 3`, `max_mul_cells_for_size w` is the
largest `k` with `w ^ k ≤ MAX_CLUE_VALUE`, and every intermediate power
reached by the loop also stays within the cap. -/
theorem C2_max_mul_cells_correct (w : Nat) (hw : 3 ≤ w) :
    w ^ max_mul_cells_for_size w ≤ MAX_CLUE_VALUE ∧
    (∀ j, w ^ j ≤ MAX_CLUE_VALUE → j ≤ max_mul_cells_for_size w) ∧
    (∀ j, j ≤ max_mul_cells_for_size w → w ^ j ≤ MAX_CLUE_VALUE) := by
  have hbig : MAX_CLUE_VALUE < 1 * w ^ 17 := by
    have h3 : (3 : Nat) ^ 17 ≤ w ^ 17 := Nat.pow_le_pow_left hw 17
    have : (MAX_CLUE_VALUE : Nat) < 3 ^ 17 := by norm_num [MAX_CLUE_VALUE]
    omega
  obtain ⟨k, hk, hle, hgt⟩ :=
    mulCellsLoop_spec 17 w 1 0 (by omega) (le_refl 1) (by norm_num [MAX_CLUE_VALUE]) hbig
  have hkk : max_mul_cells_for_size w = k := by
    simpa [max_mul_cells_for_size] using hk
  rw [hkk]
  simp only [one_mul] at hle hgt
  refine ⟨hle, ?_, ?_⟩
  · intro j hj
    by_contra hcon
    have hjk : k + 1 ≤ j := by omega
    have : w ^ (k + 1) ≤ w ^ j := Nat.pow_le_pow_right (by omega) hjk
    omega
  · intro j hj
    have : w ^ j ≤ w ^ k := Nat.pow_le_pow_right (by omega) hj
    omega

/-- Witness for C2 at `w = 3`: the loop yields 10, `3^10 ≤ 99999`, and
`j = 10` is accepted as within bound by the maximality direction. -/
theorem C2_max_mul_cells_correct_witness :
    3 ^ max_mul_cells_for_size 3 ≤ MAX_CLUE_VALUE ∧
    max_mul_cells_for_size 3 = 10 :=
  ⟨(C2_max_mul_cells_correct 3 (by decide)).1, by decide⟩

theorem sampleLoop_true_spec (f : Nat → Bool) :
    ∀ fuel attempts, (sampleLoop f attempts fuel).1 = true →
      attempts < (sampleLoop f attempts fuel).2 ∧
      (sampleLoop f attempts fuel).2 ≤ attempts + fuel ∧
      f (sampleLoop f attempts fuel).2 = true ∧
      ∀ j, attempts < j → j < (sampleLoop f attempts fuel).2 → f j = false := by
  intro fuel
  induction fuel with
  | zero => intro attempts h; simp [sampleLoop] at h
  | succ fuel ih =>
      intro attempts h
      by_cases hf : f (attempts + 1) = true
      · simp [sampleLoop, hf]
        omega
      · simp only [sampleLoop, Bool.not_eq_true] at h ⊢
        rw [if_neg (by simp [hf])] at h ⊢
        obtain ⟨h1, h2, h3, h4⟩ := ih (attempts + 1) h
        refine ⟨by omega, by omega, h3, ?_⟩
        intro j hj1 hj2
        rcases Nat.lt_or_ge (attempts + 1) j with hj | hj
        · exact h4 j hj hj2
        · have : j = attempts + 1 := by omega
          subst this
          simpa using hf

theorem sampleLoop_false_spec (f : Nat → Bool) :
    ∀ fuel attempts, (sampleLoop f attempts fuel).1 = false →
      (sampleLoop f attempts fuel).2 = attempts + fuel ∧
      ∀ j, attempts < j → j ≤ attempts + fuel → f j = false := by
  intro fuel
  induction fuel with
  | zero => intro attempts _; simp [sampleLoop]; omega
  | succ fuel ih =>
      intro attempts h
      by_cases hf : f (attempts + 1) = true
      · simp [sampleLoop, hf] at h
      · simp only [sampleLoop] at h ⊢
        rw [if_neg (by simp [hf])] at h ⊢
        obtain ⟨h1, h2⟩ := ih (attempts + 1) h
        refine ⟨by omega, ?_⟩
        intro j hj1 hj2
        rcases Nat.lt_or_ge (attempts + 1) j with hj | hj
        · exact h2 j hj (by omega)
        · have : j = attempts + 1 := by omega
          subst this
          simpa using hf

/-- C5: the retry loop of every sample terminates within `MAX_ATTEMPTS`
iterations: it either succeeds with an attempt count between 1 and 25
(all strictly earlier attempts having failed, the counter having been
bumped on every iteration), or fails with the counter at exactly 25 and
every attempt having failed. -/
theorem C5_retry_loop_bounded (f : Nat → Bool) :
    ((runSample f).1 = true ∧ 1 ≤ (runSample f).2 ∧
      (runSample f).2 ≤ MAX_ATTEMPTS ∧ f (runSample f).2 = true ∧
      (((List.range ((runSample f).2 - 1)).all (fun j => !f (j + 1))) = true)) ∨
    ((runSample f).1 = false ∧ (runSample f).2 = MAX_ATTEMPTS ∧
      (((List.range MAX_ATTEMPTS).all (fun j => !f (j + 1))) = true)) := by
  simp only [runSample]
  rcases hb : (sampleLoop f 0 MAX_ATTEMPTS).1 with _ | _
  · right
    obtain ⟨h1, h2⟩ := sampleLoop_false_spec f MAX_ATTEMPTS 0 hb
    refine ⟨rfl, by simpa using h1, ?_⟩
    rw [List.all_eq_true]
    intro j hj
    rw [List.mem_range] at hj
    simp only [Bool.not_eq_true']
    exact h2 (j + 1) (by omega) (by omega)
  · left
    obtain ⟨h1, h2, h3, h4⟩ := sampleLoop_true_spec f MAX_ATTEMPTS 0 hb
    refine ⟨rfl, by omega, by simpa using h2, h3, ?_⟩
    rw [List.all_eq_true]
    intro j hj
    rw [List.mem_range] at hj
    simp only [Bool.not_eq_true']
    exact h4 (j + 1) (by omega) (by omega)

/-- C6: `test_combination` processes every one of its `puzzles` samples
and each contributes to exactly one of the success/failure counters:
`successes + failures = puzzles` on return. -/
theorem C6_failure_isolation (gen : GameParams → List Char → Option (List Char))
    (w diff prof mc mm puzzles b : Nat) :
    (test_combination gen w diff prof mc mm puzzles b).successes +
      (test_combination gen w diff prof mc mm puzzles b).failures = puzzles := by
  show (comboLoop _ puzzles).successes + (comboLoop _ puzzles).failures = puzzles
  induction puzzles with
  | zero => rfl
  | succ n ih =>
      simp only [comboLoop]
      rcases (sampleResult gen b w diff prof mc mm n).1 <;> simp <;> omega

theorem acceptedDesc_eq_some (gen : GameParams → List Char → Option (List Char))
    (b w diff prof mc mm p : Nat) (d : List Char)
    (h : acceptedDesc gen b w diff prof mc mm p = some d) :
    attemptAccepts w mc mm (some d) = true ∧
    runAttempt gen b w diff prof p (sampleResult gen b w diff prof mc mm p).2 = some d := by
  simp only [acceptedDesc] at h
  rcases hb : (sampleResult gen b w diff prof mc mm p).1 with _ | _
  · rw [hb] at h
    simp at h
  · rw [hb] at h
    rw [if_pos (by trivial)] at h
    obtain ⟨-, -, hf, -⟩ :=
      sampleLoop_true_spec (attemptOk gen b w diff prof mc mm p) MAX_ATTEMPTS 0 hb
    refine ⟨?_, h⟩
    have : attemptOk gen b w diff prof mc mm p
        (sampleResult gen b w diff prof mc mm p).2 = true := hf
    unfold attemptOk at this
    rwa [h] at this

theorem attemptAccepts_true_elim (w mc mm : Nat) (d : List Char)
    (h : attemptAccepts w mc mm (some d) = true) :
    clue_values_within_cap d = true ∧
    (0 < mc → ∃ roots, parse_root_indices w d = some roots ∧
      (cage_sizes_within_limit roots mc).1 = true) ∧
    (0 < mm → ∃ roots ops, parse_root_indices w d = some roots ∧
      parse_ops roots d = some ops ∧
      mult_cages_within_limit roots (opsFun roots ops) mm = true) := by
  simp only [attemptAccepts] at h
  by_cases hclue : clue_values_within_cap d = false
  · rw [if_pos hclue] at h
    exact absurd h (by simp)
  · rw [if_neg hclue] at h
    refine ⟨by simpa using hclue, ?_⟩
    by_cases hcaps : 0 < mc ∨ 0 < mm
    · rw [if_pos hcaps] at h
      rcases hroots : parse_root_indices w d with _ | roots
      · rw [hroots] at h
        simp at h
      · rw [hroots] at h
        have h2 : (if 0 < mc ∧ (cage_sizes_within_limit roots mc).1 = false then false
            else if 0 < mm then
              match parse_ops roots d with
              | none => false
              | some ops => mult_cages_within_limit roots (opsFun roots ops) mm
            else true) = true := h
        clear h
        by_cases hmc : 0 < mc ∧ (cage_sizes_within_limit roots mc).1 = false
        · rw [if_pos hmc] at h2
          simp at h2
        · rw [if_neg hmc] at h2
          have hmcok : 0 < mc → (cage_sizes_within_limit roots mc).1 = true := by
            intro hmc1
            rcases hb : (cage_sizes_within_limit roots mc).1 with _ | _
            · exact absurd ⟨hmc1, hb⟩ hmc
            · rfl
          constructor
          · intro hmc1
            exact ⟨roots, rfl, hmcok hmc1⟩
          · intro hmm1
            rw [if_pos hmm1] at h2
            rcases hops : parse_ops roots d with _ | ops
            · rw [hops] at h2
              simp at h2
            · rw [hops] at h2
              exact ⟨roots, ops, rfl, hops, h2⟩
    · constructor
      · intro hmc1
        exact absurd (Or.inl hmc1) hcaps
      · intro hmm1
        exact absurd (Or.inr hmm1) hcaps

/-- C1: a sample the orchestrator counts as a success carries a
descriptor that passed `clue_values_within_cap`, and, whenever the
respective caps are enabled, also `cage_sizes_within_limit` and
`mult_cages_within_limit`: an accepted descriptor never violates a
declared cap. -/
theorem C1_accepted_respects_caps
    (gen : GameParams → List Char → Option (List Char))
    (b w diff prof mc mm p : Nat) (d : List Char)
    (h : acceptedDesc gen b w diff prof mc mm p = some d) :
    clue_values_within_cap d = true ∧
    (0 < mc → ∃ roots, parse_root_indices w d = some roots ∧
      (cage_sizes_within_limit roots mc).1 = true) ∧
    (0 < mm → ∃ roots ops, parse_root_indices w d = some roots ∧
      parse_ops roots d = some ops ∧
      mult_cages_within_limit roots (opsFun roots ops) mm = true) :=
  attemptAccepts_true_elim w mc mm d (acceptedDesc_eq_some gen b w diff prof mc mm p d h).1

/-- Witness for C1: with the stub generator, sample 0 is accepted with
`demoDesc`, whose clue and cage caps indeed check out. -/
theorem C1_accepted_respects_caps_witness :
    clue_values_within_cap demoDesc = true ∧
    (∃ roots, parse_root_indices 3 demoDesc = some roots ∧
      (cage_sizes_within_limit roots 6).1 = true) := by
  have h := C1_accepted_respects_caps demoGen 0 3 0 0 6 5 0 demoDesc (by decide)
  exact ⟨h.1, h.2.1 (by decide)⟩

/-- C4: every descriptor the orchestrator accepts comes straight from
the generator, so under the generator's spec-mandated invariant its
parsed root array is idempotent: `roots[roots[i]] == roots[i]`. -/
theorem C4_accepted_roots_idempotent
    (gen : GameParams → List Char → Option (List Char))
    (b w diff prof mc mm p : Nat) (d : List Char) (roots : List Nat)
    (hgen : GenRootsIdempotent gen w)
    (hacc : acceptedDesc gen b w diff prof mc mm p = some d)
    (hparse : parse_root_indices w d = some roots) :
    ∀ i, i < roots.length → roots.getD (roots.getD i 0) 0 = roots.getD i 0 := by
  have hrun := (acceptedDesc_eq_some gen b w diff prof mc mm p d hacc).2
  unfold runAttempt at hrun
  exact hgen _ _ d roots hrun hparse

/-- Witness for C4: the stub generator trivially meets the idempotence
contract; the accepted descriptor's roots are `[0,…,8]`. -/
theorem C4_accepted_roots_idempotent_witness :
    ([0, 1, 2, 3, 4, 5, 6, 7, 8] : List Nat).getD
      (([0, 1, 2, 3, 4, 5, 6, 7, 8] : List Nat).getD 4 0) 0 =
    ([0, 1, 2, 3, 4, 5, 6, 7, 8] : List Nat).getD 4 0 := by
  have hg : GenRootsIdempotent demoGen 3 := by
    intro prm seed d roots hd hp
    have hdd : demoDesc = d := by
      have : (some demoDesc : Option (List Char)) = some d := hd
      simpa using this
    subst hdd
    have hr : parse_root_indices 3 demoDesc =
        some [0, 1, 2, 3, 4, 5, 6, 7, 8] := by decide
    rw [hr] at hp
    have hrr : ([0, 1, 2, 3, 4, 5, 6, 7, 8] : List Nat) = roots := by
      simpa using hp
    subst hrr
    decide
  exact C4_accepted_roots_idempotent demoGen 0 3 0 0 6 5 0 demoDesc
    [0, 1, 2, 3, 4, 5, 6, 7, 8] hg (by decide) (by decide) 4 (by decide)

theorem sampleLoop_congr (f1 f2 : Nat → Bool) (h : ∀ j, f1 j = f2 j) :
    ∀ fuel attempts, sampleLoop f1 attempts fuel = sampleLoop f2 attempts fuel := by
  intro fuel
  induction fuel with
  | zero => intro attempts; rfl
  | succ fuel ih =>
      intro attempts
      simp only [sampleLoop, h, ih]

/-- The seed string is never empty (it starts with `test_`). -/
theorem seedString_ne_nil (b p a : Nat) : seedString b p a ≠ [] := by
  intro hcon
  have hlen := congrArg List.length hcon
  simp only [seedString, List.length_append, List.length_cons,
    List.length_nil] at hlen
  omega

/-- C8: the orchestrator invokes the generator only at the seed string
and parameters derived from `(base_seed, size, difficulty, profile,
puzzle_index, attempt_index)`; two runs whose generators agree on those
derived inputs produce identical sample outcomes and identical accepted
descriptors. -/
theorem C8_deterministic_generation
    (gen1 gen2 : GameParams → List Char → Option (List Char))
    (b w diff prof mc mm p : Nat)
    (h : ∀ att, gen1 (mkParams w diff prof) (seedString b p att) =
                gen2 (mkParams w diff prof) (seedString b p att)) :
    sampleResult gen1 b w diff prof mc mm p = sampleResult gen2 b w diff prof mc mm p ∧
    acceptedDesc gen1 b w diff prof mc mm p = acceptedDesc gen2 b w diff prof mc mm p := by
  have hf : ∀ att, attemptOk gen1 b w diff prof mc mm p att =
      attemptOk gen2 b w diff prof mc mm p att := by
    intro att
    unfold attemptOk runAttempt
    rw [h att]
  have hs : sampleResult gen1 b w diff prof mc mm p =
      sampleResult gen2 b w diff prof mc mm p := by
    unfold sampleResult runSample
    exact sampleLoop_congr _ _ hf MAX_ATTEMPTS 0
  refine ⟨hs, ?_⟩
  simp only [acceptedDesc, hs]
  rcases hr : (sampleResult gen2 b w diff prof mc mm p).1 with _ | _
  · simp [hr]
  · have hatt := h (sampleResult gen2 b w diff prof mc mm p).2
    simp [hr, runAttempt, hatt]

/-- Witness for C8: `genA` and `genB` differ as functions but agree on
all derived seeds, so the orchestrator's accepted descriptors agree. -/
theorem C8_deterministic_generation_witness :
    acceptedDesc genA 0 3 0 0 6 5 0 = acceptedDesc genB 0 3 0 0 6 5 0 :=
  (C8_deterministic_generation genA genB 0 3 0 0 6 5 0 (fun att => by
    show (none : Option (List Char)) =
      if seedString 0 0 att = [] then some [] else none
    rw [if_neg (seedString_ne_nil 0 0 att)])).2

theorem le_listMax_of_mem {a : Nat} {l : List Nat} (h : a ∈ l) : a ≤ listMax l := by
  induction l with
  | nil => cases h
  | cons x xs ih =>
      rcases List.mem_cons.mp h with h | h
      · subst h
        simp [listMax]
      · have := ih h
        simp only [listMax, List.foldr_cons] at this ⊢
        omega

theorem listMax_le {b : Nat} {l : List Nat} (h : ∀ a ∈ l, a ≤ b) : listMax l ≤ b := by
  induction l with
  | nil => simp [listMax]
  | cons x xs ih =>
      have hx := h x (by simp)
      have hxs := ih (fun a ha => h a (by simp [ha]))
      simp only [listMax, List.foldr_cons] at hxs ⊢
      omega

theorem mapCongrMem {α β : Type} (f g : α → β) :
    ∀ l : List α, (∀ a ∈ l, f a = g a) → l.map f = l.map g := by
  intro l
  induction l with
  | nil => intro _; rfl
  | cons x xs ih =>
      intro h
      simp only [List.map_cons]
      rw [h x (by simp), ih (fun a ha => h a (by simp [ha]))]

theorem cageLoop_snd_max_split :
    ∀ (l : List Nat) (counts : Nat → Nat) (mx : Nat),
      (cageLoop l counts mx).2 = max mx (cageLoop l counts 0).2 := by
  intro l
  induction l with
  | nil => intro counts mx; simp [cageLoop]
  | cons r rest ih =>
      intro counts mx
      simp only [cageLoop]
      have h1 : (if mx < counts r + 1 then counts r + 1 else mx) =
          max mx (counts r + 1) := by
        split <;> omega
      have h2 : (if 0 < counts r + 1 then counts r + 1 else 0) = counts r + 1 := by
        split <;> omega
      rw [h1, h2, ih (bumpCounts counts r) (max mx (counts r + 1)),
        ih (bumpCounts counts r) (counts r + 1)]
      omega

theorem cageLoop_count_le :
    ∀ (l : List Nat) (counts : Nat → Nat) (s : Nat),
      counts s + l.count s ≤ max (counts s) (cageLoop l counts 0).2 := by
  intro l
  induction l with
  | nil => intro counts s; simp [cageLoop]
  | cons r rest ih =>
      intro counts s
      simp only [cageLoop]
      have h2 : (if 0 < counts r + 1 then counts r + 1 else 0) = counts r + 1 := by
        split <;> omega
      rw [h2, cageLoop_snd_max_split rest (bumpCounts counts r) (counts r + 1)]
      by_cases hsr : s = r
      · subst hsr
        have hcount : (s :: rest).count s = rest.count s + 1 := by
          simp [List.count_cons]
        have hbump : bumpCounts counts s s = counts s + 1 := by
          simp [bumpCounts]
        have := ih (bumpCounts counts s) s
        rw [hbump] at this
        omega
      · have hcount : (r :: rest).count s = rest.count s := by
          simp [List.count_cons, hsr]
        have hbump : bumpCounts counts r s = counts s := by
          simp [bumpCounts, hsr]
        have := ih (bumpCounts counts r) s
        rw [hbump] at this
        omega

theorem cageLoop_le_listMax :
    ∀ (l : List Nat) (counts : Nat → Nat),
      (cageLoop l counts 0).2 ≤ listMax (l.map (fun s => counts s + l.count s)) := by
  intro l
  induction l with
  | nil => intro counts; simp [cageLoop, listMax]
  | cons r rest ih =>
      intro counts
      simp only [cageLoop]
      have h2 : (if 0 < counts r + 1 then counts r + 1 else 0) = counts r + 1 := by
        split <;> omega
      rw [h2, cageLoop_snd_max_split rest (bumpCounts counts r) (counts r + 1)]
      have hhead : counts r + (r :: rest).count r ≤
          listMax ((r :: rest).map (fun s => counts s + (r :: rest).count s)) := by
        exact le_listMax_of_mem (List.mem_map.mpr ⟨r, by simp, rfl⟩)
      have hheadc : (r :: rest).count r = rest.count r + 1 := by
        simp [List.count_cons]
      have hrest : (cageLoop rest (bumpCounts counts r) 0).2 ≤
          listMax (rest.map (fun s => counts s + (r :: rest).count s)) := by
        have heq : rest.map (fun s => bumpCounts counts r s + rest.count s) =
            rest.map (fun s => counts s + (r :: rest).count s) := by
          apply mapCongrMem
          intro s hs
          by_cases hsr : s = r
          · subst hsr
            simp [bumpCounts, List.count_cons]
            omega
          · simp [bumpCounts, hsr, List.count_cons]
        calc (cageLoop rest (bumpCounts counts r) 0).2 ≤
              listMax (rest.map (fun s => bumpCounts counts r s + rest.count s)) :=
                ih (bumpCounts counts r)
          _ = listMax (rest.map (fun s => counts s + (r :: rest).count s)) := by rw [heq]
      have hsub : listMax (rest.map (fun s => counts s + (r :: rest).count s)) ≤
          listMax ((r :: rest).map (fun s => counts s + (r :: rest).count s)) := by
        apply listMax_le
        intro x hx
        exact le_listMax_of_mem (by
          rcases List.mem_map.mp hx with ⟨s, hs, hxs⟩
          exact List.mem_map.mpr ⟨s, by simp [hs], hxs⟩)
      omega

/-- C7: `cage_sizes_within_limit` succeeds iff no cage holds more than
`max_size` cells, and its reported maximum (`*max_seen`) is exactly the
cell count of the largest cage. -/
theorem C7_cage_sizes_correct (roots : List Nat) (a max_size : Nat)
    (_hroots : ∀ r ∈ roots, r < a) :
    ((cage_sizes_within_limit roots max_size).1 = true ↔
      ∀ r, roots.count r ≤ max_size) ∧
    (cage_sizes_within_limit roots max_size).2 =
      listMax (roots.map (fun r => roots.count r)) := by
  have hcount : ∀ s, roots.count s ≤ (cageLoop roots (fun _ => 0) 0).2 := by
    intro s
    have := cageLoop_count_le roots (fun _ => 0) s
    simpa using this
  have hup : (cageLoop roots (fun _ => 0) 0).2 ≤
      listMax (roots.map (fun r => roots.count r)) := by
    have := cageLoop_le_listMax roots (fun _ => 0)
    have heq : roots.map (fun s => (fun _ => 0) s + roots.count s) =
        roots.map (fun r => roots.count r) := by
      apply mapCongrMem
      intro s _
      simp
    rwa [heq] at this
  have hdown : listMax (roots.map (fun r => roots.count r)) ≤
      (cageLoop roots (fun _ => 0) 0).2 := by
    apply listMax_le
    intro x hx
    rcases List.mem_map.mp hx with ⟨s, _, hxs⟩
    rw [← hxs]
    exact hcount s
  have hsnd : (cage_sizes_within_limit roots max_size).2 =
      listMax (roots.map (fun r => roots.count r)) := by
    simp only [cage_sizes_within_limit]
    omega
  refine ⟨?_, hsnd⟩
  constructor
  · intro h r
    simp only [cage_sizes_within_limit, decide_eq_true_eq] at h
    exact le_trans (hcount r) h
  · intro h
    simp only [cage_sizes_within_limit, decide_eq_true_eq]
    calc (cageLoop roots (fun _ => 0) 0).2 ≤
          listMax (roots.map (fun r => roots.count r)) := hup
      _ ≤ max_size := listMax_le (by
          intro x hx
          rcases List.mem_map.mp hx with ⟨s, _, hxs⟩
          rw [← hxs]
          exact h s)

/-- Witness for C7: on `[0, 0, 2]` the reported maximum is 2, the size
of the two-cell cage rooted at 0. -/
theorem C7_cage_sizes_correct_witness :
    (cage_sizes_within_limit [0, 0, 2] 2).2 =
      listMax (([0, 0, 2] : List Nat).map (fun r => ([0, 0, 2] : List Nat).count r)) :=
  (C7_cage_sizes_correct [0, 0, 2] 3 2 (by decide)).2

theorem atoiDigits_lt : ∀ (cs : List Char) (acc : Nat),
    atoiDigits cs acc < (acc + 1) * 10 ^ cs.length := by
  intro cs
  induction cs with
  | nil =>
      intro acc
      simp [atoiDigits]
  | cons c rest ih =>
      intro acc
      simp only [atoiDigits, List.length_cons]
      by_cases hc : isDigitC c = true
      · rw [if_pos hc]
        have hd : c.toNat - 48 ≤ 9 := by
          simp only [isDigitC, Bool.and_eq_true, decide_eq_true_eq] at hc
          omega
        have h1 := ih (acc * 10 + (c.toNat - 48))
        have h2 : (acc * 10 + (c.toNat - 48) + 1) * 10 ^ rest.length ≤
            (acc + 1) * 10 ^ (rest.length + 1) := by
          have hstep : acc * 10 + (c.toNat - 48) + 1 ≤ (acc + 1) * 10 := by omega
          calc (acc * 10 + (c.toNat - 48) + 1) * 10 ^ rest.length ≤
                ((acc + 1) * 10) * 10 ^ rest.length :=
                  Nat.mul_le_mul_right _ hstep
            _ = (acc + 1) * 10 ^ (rest.length + 1) := by ring
        omega
      · rw [if_neg hc]
        have hpow : 1 ≤ 10 ^ (rest.length + 1) := Nat.one_le_pow _ _ (by omega)
        calc acc < acc + 1 := by omega
          _ ≤ (acc + 1) * 10 ^ (rest.length + 1) := Nat.le_mul_of_pos_right _ (by omega)

theorem atoi_le_cap (cs : List Char) (h : cs.length ≤ 5) :
    atoi cs ≤ (MAX_CLUE_VALUE : Int) := by
  have hdrop : (cs.dropWhile isSpaceC).length ≤ 5 :=
    le_trans (List.Sublist.length_le (List.dropWhile_sublist _)) h
  unfold atoi
  rcases hcs1 : cs.dropWhile isSpaceC with _ | ⟨c, rest⟩
  · decide
  · rw [hcs1] at hdrop
    simp only [List.length_cons] at hdrop
    show (if c = '-' then - (atoiDigits rest 0 : Int)
        else if c = '+' then (atoiDigits rest 0 : Int)
        else (atoiDigits (c :: rest) 0 : Int)) ≤ (MAX_CLUE_VALUE : Int)
    by_cases hm : c = '-'
    · rw [if_pos hm]
      have : (0 : Int) ≤ (atoiDigits rest 0 : Int) := Int.natCast_nonneg _
      simp only [MAX_CLUE_VALUE]
      omega
    · rw [if_neg hm]
      by_cases hp : c = '+'
      · rw [if_pos hp]
        have hb := atoiDigits_lt rest 0
        have hlt : atoiDigits rest 0 < 10 ^ rest.length := by simpa using hb
        have h4 : (10 : Nat) ^ rest.length ≤ 10 ^ 4 :=
          Nat.pow_le_pow_right (by omega) (by omega)
        have hle : atoiDigits rest 0 ≤ 99999 := by
          have : (10 : Nat) ^ 4 = 10000 := by norm_num
          omega
        simp only [MAX_CLUE_VALUE]
        exact_mod_cast hle
      · rw [if_neg hp]
        have hb := atoiDigits_lt (c :: rest) 0
        have hlt : atoiDigits (c :: rest) 0 < 10 ^ (c :: rest).length := by
          simpa using hb
        simp only [List.length_cons] at hlt
        have h5 : (10 : Nat) ^ (rest.length + 1) ≤ 10 ^ 5 :=
          Nat.pow_le_pow_right (by omega) (by omega)
        have hle : atoiDigits (c :: rest) 0 ≤ 99999 := by
          have : (10 : Nat) ^ 5 = 100000 := by norm_num
          omega
        simp only [MAX_CLUE_VALUE]
        exact_mod_cast hle

theorem clueLoop_eq_noCap : ∀ (n : Nat) (cs : List Char), cs.length ≤ n →
    clueLoop cs = clueLoopNoCap cs := by
  intro n
  induction n with
  | zero =>
      intro cs h
      have : cs = [] := List.length_eq_zero.mp (by omega)
      subst this
      rfl
  | succ n ih =>
      intro cs h
      match cs with
      | [] => rfl
      | [op] => rfl
      | [op, c1] => rfl
      | [op, c1, c2] => rfl
      | [op, c1, c2, c3] => rfl
      | [op, c1, c2, c3, c4] => rfl
      | [op, c1, c2, c3, c4, c5] =>
          have hcap : ¬ ((MAX_CLUE_VALUE : Int) < atoi [c1, c2, c3, c4, c5]) :=
            not_lt.mpr (atoi_le_cap [c1, c2, c3, c4, c5] (by simp))
          simp only [clueLoop, clueLoopNoCap]
          rw [if_neg hcap]
      | op :: c1 :: c2 :: c3 :: c4 :: c5 :: c :: rest2 =>
          have hcap : ¬ ((MAX_CLUE_VALUE : Int) < atoi [c1, c2, c3, c4, c5]) :=
            not_lt.mpr (atoi_le_cap [c1, c2, c3, c4, c5] (by simp))
          have hlen : rest2.length ≤ n := by
            simp only [List.length_cons] at h
            omega
          simp only [clueLoop, clueLoopNoCap]
          rw [if_neg hcap, ih rest2 hlen]

/-- C10: the over-cap rejection branch of `clue_values_within_cap` is
unreachable — an `atoi` of at most five characters never exceeds 99999,
so the function coincides with its purely structural variant and can
only fail for structural malformation. -/
theorem C10_cap_branch_unreachable :
    (∀ cs : List Char, cs.length ≤ 5 → atoi cs ≤ (MAX_CLUE_VALUE : Int)) ∧
    (∀ cs : List Char, clue_values_within_cap cs = clue_values_structural cs) := by
  refine ⟨atoi_le_cap, ?_⟩
  intro cs
  unfold clue_values_within_cap clue_values_structural
  rcases splitSem cs with _ | pr
  · rfl
  · exact clueLoop_eq_noCap pr.2.length pr.2 le_rfl

/-- Witness for C10: the extreme five-digit field evaluates to exactly
the cap, and a concrete descriptor is judged identically by the capped
and the structural scan. -/
theorem C10_cap_branch_unreachable_witness :
    atoi ("99999".data) ≤ (MAX_CLUE_VALUE : Int) ∧
    clue_values_within_cap ("0;a00001".data) =
      clue_values_structural ("0;a00001".data) :=
  ⟨C10_cap_branch_unreachable.1 ("99999".data) (by decide),
   C10_cap_branch_unreachable.2 ("0;a00001".data)⟩

/-- C9: on the diamond flow network, the solver returns maximum flow 20
from source 0 to sink 3. -/
theorem C9_diamond_maxflow : maxflow 4 diamondEdges 0 3 = 20 := by decide

theorem readDigits_eq : ∀ (cs : List Char) (val digits : Nat),
    readDigits cs val digits =
      (digAccum (cs.takeWhile isDigitC) val,
       digits + (cs.takeWhile isDigitC).length,
       cs.dropWhile isDigitC) := by
  intro cs
  induction cs with
  | nil =>
      intro val digits
      simp [readDigits, digAccum]
  | cons c rest ih =>
      intro val digits
      by_cases hc : isDigitC c = true
      · simp only [readDigits, hc, if_pos, List.takeWhile_cons, List.dropWhile_cons,
          if_true, ih, digAccum, List.foldl_cons, List.length_cons]
        have harith : digits + 1 + (List.takeWhile isDigitC rest).length =
            digits + ((List.takeWhile isDigitC rest).length + 1) := by omega
        rw [harith]
      · simp only [readDigits, List.takeWhile_cons, List.dropWhile_cons]
        rw [if_neg hc, if_neg hc, if_neg hc]
        simp [digAccum]

theorem splitSem_none (cs : List Char) (h : ';' ∉ cs) : splitSem cs = none := by
  induction cs with
  | nil => rfl
  | cons c rest ih =>
      simp only [splitSem]
      rw [if_neg (by intro hcon; exact h (by simp [hcon]))]
      rw [ih (by intro hcon; exact h (by simp [hcon]))]
      rfl

theorem splitSem_some : ∀ (cs pre tail : List Char),
    splitSem cs = some (pre, tail) → cs = pre ++ ';' :: tail ∧ ';' ∉ pre := by
  intro cs
  induction cs with
  | nil => intro pre tail h; simp [splitSem] at h
  | cons c rest ih =>
      intro pre tail h
      simp only [splitSem] at h
      by_cases hc : c = ';'
      · rw [if_pos hc] at h
        simp only [Option.some.injEq, Prod.mk.injEq] at h
        obtain ⟨h1, h2⟩ := h
        subst h1
        subst h2
        subst hc
        exact ⟨rfl, by simp⟩
      · rw [if_neg hc] at h
        rcases hs : splitSem rest with _ | pr
        · rw [hs] at h
          simp at h
        · rw [hs] at h
          simp at h
          obtain ⟨hpre, htail⟩ := h
          obtain ⟨hrest, hnotin⟩ := ih pr.1 pr.2 (by rw [hs])
          subst hpre
          subst htail
          constructor
          · rw [hrest]
            rfl
          · intro hcon
            rcases List.mem_cons.mp hcon with hcon | hcon
            · exact hc hcon.symm
            · exact hnotin hcon

theorem rootsLoop_sound (a : Nat) : ∀ (n : Nat) (cs : List Char) (roots : List Nat),
    rootsLoop a n cs = some roots →
    ∃ runs : List (List Char),
      runs.length = n ∧
      cs = joinRuns runs ∧
      roots = runs.map (fun run => digAccum run 0) ∧
      ∀ run ∈ runs, run ≠ [] ∧ (∀ c ∈ run, isDigitC c = true) ∧
        digAccum run 0 < 2 ^ 31 ∧ digAccum run 0 < a := by
  intro n
  induction n with
  | zero =>
      intro cs roots h
      rw [rootsLoop.eq_1] at h
      by_cases hcs : cs = []
      · rw [if_pos hcs] at h
        subst hcs
        injection h with h
        refine ⟨[], rfl, rfl, by rw [← h]; rfl, ?_⟩
        intro run hrun
        simp at hrun
      · rw [if_neg hcs] at h
        simp at h
  | succ n ih =>
      intro cs roots h
      have hsplit : cs = cs.takeWhile isDigitC ++ cs.dropWhile isDigitC :=
        (List.takeWhile_append_dropWhile isDigitC cs).symm
      rcases n with _ | k
      · rw [rootsLoop.eq_2] at h
        simp only [readDigits_eq, Nat.zero_add] at h
        by_cases hg : ((cs.takeWhile isDigitC).length = 0 ∨
            2 ^ 31 ≤ digAccum (cs.takeWhile isDigitC) 0 ∨
            a ≤ digAccum (cs.takeWhile isDigitC) 0)
        · rw [if_pos hg] at h
          simp at h
        · rw [if_neg hg] at h
          rw [not_or, not_or] at hg
          obtain ⟨hlen0, hsign, hvala⟩ := hg
          by_cases hdrop : cs.dropWhile isDigitC = []
          · rw [if_pos hdrop] at h
            injection h with h
            refine ⟨[cs.takeWhile isDigitC], rfl, ?_, ?_, ?_⟩
            · calc cs = cs.takeWhile isDigitC ++ cs.dropWhile isDigitC := hsplit
                _ = cs.takeWhile isDigitC ++ [] := by rw [hdrop]
                _ = cs.takeWhile isDigitC := List.append_nil _
                _ = joinRuns [cs.takeWhile isDigitC] := rfl
            · rw [← h]
              rfl
            · intro run hrun
              have hr : run = cs.takeWhile isDigitC := by simpa using hrun
              subst hr
              refine ⟨?_, ?_, by omega, by omega⟩
              · intro hnil
                apply hlen0
                rw [hnil]
                rfl
              · intro c hc
                exact List.mem_takeWhile_imp hc
          · rw [if_neg hdrop] at h
            simp at h
      · rw [rootsLoop.eq_3] at h
        simp only [readDigits_eq, Nat.zero_add] at h
        by_cases hg : ((cs.takeWhile isDigitC).length = 0 ∨
            2 ^ 31 ≤ digAccum (cs.takeWhile isDigitC) 0 ∨
            a ≤ digAccum (cs.takeWhile isDigitC) 0)
        · rw [if_pos hg] at h
          simp at h
        · rw [if_neg hg] at h
          rw [not_or, not_or] at hg
          obtain ⟨hlen0, hsign, hvala⟩ := hg
          rcases hdrop : cs.dropWhile isDigitC with _ | ⟨c, r2⟩
          · rw [hdrop] at h
            simp at h
          · rw [hdrop] at h
            have h2 : (if c = ',' then
                Option.map (fun vs => digAccum (cs.takeWhile isDigitC) 0 :: vs)
                  (rootsLoop a (k + 1) r2)
                else none) = some roots := h
            clear h
            by_cases hc : c = ','
            · rw [if_pos hc] at h2
              rcases hr : rootsLoop a (k + 1) r2 with _ | roots2
              · rw [hr] at h2
                simp at h2
              · rw [hr] at h2
                have h3 : some (digAccum (cs.takeWhile isDigitC) 0 :: roots2) =
                    some roots := h2
                injection h3 with h3
                obtain ⟨runs2, hl2, hj2, hm2, hp2⟩ := ih r2 roots2 hr
                refine ⟨cs.takeWhile isDigitC :: runs2, by simp [hl2], ?_, ?_, ?_⟩
                · rcases runs2 with _ | ⟨s, rs⟩
                  · simp at hl2
                  · have hj : joinRuns (cs.takeWhile isDigitC :: s :: rs) =
                        cs.takeWhile isDigitC ++ ',' :: joinRuns (s :: rs) := rfl
                    rw [hj, ← hj2]
                    calc cs = cs.takeWhile isDigitC ++ cs.dropWhile isDigitC := hsplit
                      _ = cs.takeWhile isDigitC ++ c :: r2 := by rw [hdrop]
                      _ = cs.takeWhile isDigitC ++ ',' :: r2 := by rw [hc]
                · rw [← h3, hm2]
                  rfl
                · intro run hrun
                  rcases List.mem_cons.mp hrun with hrun | hrun
                  · subst hrun
                    refine ⟨?_, ?_, by omega, by omega⟩
                    · intro hnil
                      apply hlen0
                      rw [hnil]
                      rfl
                    · intro ch hch
                      exact List.mem_takeWhile_imp hch
                  · exact hp2 run hrun
            · rw [if_neg hc] at h2
              simp at h2

theorem clueLoop_sound : ∀ (n : Nat) (cs : List Char), cs.length ≤ n →
    clueLoop cs = true →
    ∃ segs trailing, cs = joinClues segs trailing ∧
      ∀ s ∈ segs, isAlphaC s.1 = true ∧ s.2.length = 5 ∧
        atoi s.2 ≤ (MAX_CLUE_VALUE : Int) := by
  intro n
  induction n with
  | zero =>
      intro cs hlen _
      have : cs = [] := List.length_eq_zero.mp (by omega)
      subst this
      exact ⟨[], false, rfl, by intro s hs; simp at hs⟩
  | succ n ih =>
      intro cs hlen h
      match cs with
      | [] => exact ⟨[], false, rfl, by intro s hs; simp at hs⟩
      | [op] => simp [clueLoop] at h
      | [op, c1] => simp [clueLoop] at h
      | [op, c1, c2] => simp [clueLoop] at h
      | [op, c1, c2, c3] => simp [clueLoop] at h
      | [op, c1, c2, c3, c4] => simp [clueLoop] at h
      | [op, c1, c2, c3, c4, c5] =>
          rw [clueLoop.eq_2] at h
          by_cases halpha : isAlphaC op = true
          · rw [if_neg (by simp [halpha])] at h
            refine ⟨[(op, [c1, c2, c3, c4, c5])], false, rfl, ?_⟩
            intro s hs
            have hseq : s = (op, [c1, c2, c3, c4, c5]) := by simpa using hs
            subst hseq
            exact ⟨halpha, rfl, atoi_le_cap [c1, c2, c3, c4, c5] (by simp)⟩
          · rw [if_pos (by simp [halpha])] at h
            simp at h
      | op :: c1 :: c2 :: c3 :: c4 :: c5 :: c :: rest2 =>
          rw [clueLoop.eq_3] at h
          by_cases halpha : isAlphaC op = true
          · rw [if_neg (by simp [halpha])] at h
            have hcap : ¬ ((MAX_CLUE_VALUE : Int) < atoi [c1, c2, c3, c4, c5]) :=
              not_lt.mpr (atoi_le_cap [c1, c2, c3, c4, c5] (by simp))
            rw [if_neg hcap] at h
            by_cases hc : c = ','
            · rw [if_pos hc] at h
              have hlen2 : rest2.length ≤ n := by
                simp only [List.length_cons] at hlen
                omega
              obtain ⟨segs2, tr2, hjoin2, hp2⟩ := ih rest2 hlen2 h
              rcases segs2 with _ | ⟨s0, ss⟩
              · have hr2 : rest2 = [] := by
                  rw [hjoin2]
                  rfl
                subst hr2
                subst hc
                refine ⟨[(op, [c1, c2, c3, c4, c5])], true, rfl, ?_⟩
                intro s hs
                have hseq : s = (op, [c1, c2, c3, c4, c5]) := by simpa using hs
                subst hseq
                exact ⟨halpha, rfl, atoi_le_cap [c1, c2, c3, c4, c5] (by simp)⟩
              · refine ⟨(op, [c1, c2, c3, c4, c5]) :: s0 :: ss, tr2, ?_, ?_⟩
                · have hj : joinClues ((op, [c1, c2, c3, c4, c5]) :: s0 :: ss) tr2 =
                      op :: ([c1, c2, c3, c4, c5] ++ ',' :: joinClues (s0 :: ss) tr2) :=
                    rfl
                  rw [hj, ← hjoin2, hc]
                  rfl
                · intro s hs
                  rcases List.mem_cons.mp hs with hs | hs
                  · subst hs
                    exact ⟨halpha, rfl, atoi_le_cap [c1, c2, c3, c4, c5] (by simp)⟩
                  · exact hp2 s hs
            · rw [if_neg hc] at h
              simp at h
          · rw [if_pos (by simp [halpha])] at h
            simp at h

theorem opsLoop_sound : ∀ (n : Nat) (cs ops : List Char),
    opsLoop n cs = some ops →
    ∃ (segs : List (Char × List Char × List Char)) (rest : List Char),
      cs = joinOps segs rest ∧ segs.length = n ∧
      ops = segs.map (fun s => s.1) ∧
      ∀ s ∈ segs, s.2.1.length = 5 ∧ (∀ c ∈ s.2.1, isDigitC c = true) ∧
        (s.2.2 = [] ∨ s.2.2 = [',']) := by
  intro n
  induction n with
  | zero =>
      intro cs ops h
      have hops : ops = [] := by
        have h2 : (some [] : Option (List Char)) = some ops := h
        simpa using h2.symm
      subst hops
      exact ⟨[], cs, rfl, rfl, rfl, by intro s hs; simp at hs⟩
  | succ n ih =>
      intro cs ops h
      match cs with
      | [] => simp [opsLoop] at h
      | op :: rest =>
          simp only [opsLoop] at h
          by_cases hguard : ((rest.take 5).length = 5 && (rest.take 5).all isDigitC) = true
          · rw [if_pos hguard] at h
            simp only [Bool.and_eq_true, decide_eq_true_eq, List.all_eq_true] at hguard
            obtain ⟨hlen5, hdig5⟩ := hguard
            rcases hrec : opsLoop n (skipComma (rest.drop 5)) with _ | ops2
            · rw [hrec] at h
              simp at h
            · rw [hrec] at h
              have h3 : some (op :: ops2) = some ops := h
              injection h3 with h3
              obtain ⟨segs2, rest2, hjoin2, hlen2, hmap2, hp2⟩ :=
                ih (skipComma (rest.drop 5)) ops2 hrec
              have hsplit : rest = rest.take 5 ++ rest.drop 5 :=
                (List.take_append_drop 5 rest).symm
              rcases hd : rest.drop 5 with _ | ⟨c, r⟩
              · rw [hd] at hjoin2
                have hsk : skipComma [] = [] := rfl
                rw [hsk] at hjoin2
                refine ⟨(op, rest.take 5, []) :: segs2, rest2, ?_, by simp [hlen2],
                  by rw [← h3, hmap2]; rfl, ?_⟩
                · have hj : joinOps ((op, rest.take 5, []) :: segs2) rest2 =
                      op :: (rest.take 5 ++ [] ++ joinOps segs2 rest2) := rfl
                  rw [hj, ← hjoin2]
                  conv_lhs => rw [hsplit]
                  rw [hd]
                  simp
                · intro s hs
                  rcases List.mem_cons.mp hs with hs | hs
                  · subst hs
                    exact ⟨hlen5, hdig5, Or.inl rfl⟩
                  · exact hp2 s hs
              · by_cases hc : c = ','
                · rw [hd] at hjoin2
                  have hsk : skipComma (c :: r) = r := by
                    simp [skipComma, hc]
                  rw [hsk] at hjoin2
                  refine ⟨(op, rest.take 5, [',']) :: segs2, rest2, ?_, by simp [hlen2],
                    by rw [← h3, hmap2]; rfl, ?_⟩
                  · have hj : joinOps ((op, rest.take 5, [',']) :: segs2) rest2 =
                        op :: (rest.take 5 ++ [','] ++ joinOps segs2 rest2) := rfl
                    rw [hj, ← hjoin2]
                    conv_lhs => rw [hsplit]
                    rw [hd, hc]
                    simp
                  · intro s hs
                    rcases List.mem_cons.mp hs with hs | hs
                    · subst hs
                      exact ⟨hlen5, hdig5, Or.inr rfl⟩
                    · exact hp2 s hs
                · rw [hd] at hjoin2
                  have hsk : skipComma (c :: r) = c :: r := by
                    simp [skipComma, hc]
                  rw [hsk] at hjoin2
                  refine ⟨(op, rest.take 5, []) :: segs2, rest2, ?_, by simp [hlen2],
                    by rw [← h3, hmap2]; rfl, ?_⟩
                  · have hj : joinOps ((op, rest.take 5, []) :: segs2) rest2 =
                        op :: (rest.take 5 ++ [] ++ joinOps segs2 rest2) := rfl
                    rw [hj, ← hjoin2]
                    conv_lhs => rw [hsplit]
                    rw [hd]
                    simp
                  · intro s hs
                    rcases List.mem_cons.mp hs with hs | hs
                    · subst hs
                      exact ⟨hlen5, hdig5, Or.inl rfl⟩
                    · exact hp2 s hs
          · rw [if_neg hguard] at h
            simp at h

/-- What the decoder does guarantee, over the int-wrapped model: a
missing `';'` fails all three parsers; a successful root parse forces
the consumed field to be exactly `w*w` comma-separated nonempty digit
runs whose wrapped values lie inside `[0, w*w)`; a successful clue scan
forces operator-plus-5-character entries, comma-separated (optionally
comma-terminated); a successful `parse_ops` forces every consumed value
field to be exactly five digits.  The guarantee is about the wrapped
value of each run, not its exact denoted value — see
`C3_root_overflow_accepted` for the gap. -/
theorem decode_wellformed_sound (w : Nat) (cs : List Char) :
    ((';' ∉ cs) → parse_root_indices w cs = none ∧
      clue_values_within_cap cs = false ∧
      ∀ roots, parse_ops roots cs = none) ∧
    (∀ roots, parse_root_indices w cs = some roots →
      roots.length = w * w ∧ (∀ r ∈ roots, r < w * w) ∧
      ∃ pre tail runs, cs = pre ++ ';' :: tail ∧ ';' ∉ pre ∧
        pre = joinRuns runs ∧ runs.length = w * w ∧
        roots = runs.map (fun run => digAccum run 0) ∧
        ∀ run ∈ runs, run ≠ [] ∧ (∀ c ∈ run, isDigitC c = true) ∧
          digAccum run 0 < 2 ^ 31 ∧ digAccum run 0 < w * w) ∧
    (clue_values_within_cap cs = true →
      ∃ pre tail segs trailing, cs = pre ++ ';' :: tail ∧ ';' ∉ pre ∧
        tail = joinClues segs trailing ∧
        ∀ s ∈ segs, isAlphaC s.1 = true ∧ s.2.length = 5 ∧
          atoi s.2 ≤ (MAX_CLUE_VALUE : Int)) ∧
    (∀ roots ops, parse_ops roots cs = some ops →
      ∃ pre tail segs rest, cs = pre ++ ';' :: tail ∧
        tail = joinOps segs rest ∧ segs.length = (selfRoots roots).length ∧
        ops = segs.map (fun s => s.1) ∧
        ∀ s ∈ segs, s.2.1.length = 5 ∧ ∀ c ∈ s.2.1, isDigitC c = true) := by
  refine ⟨?_, ?_, ?_, ?_⟩
  · intro hmiss
    have hnone := splitSem_none cs hmiss
    refine ⟨?_, ?_, ?_⟩
    · unfold parse_root_indices
      rw [hnone]
    · unfold clue_values_within_cap
      rw [hnone]
    · intro roots
      unfold parse_ops
      rw [hnone]
  · intro roots hp
    unfold parse_root_indices at hp
    rcases hs : splitSem cs with _ | pr
    · rw [hs] at hp
      simp at hp
    · rw [hs] at hp
      have h2 : rootsLoop (w * w) (w * w) pr.1 = some roots := hp
      obtain ⟨hcs, hnot⟩ := splitSem_some cs pr.1 pr.2 (by rw [hs])
      obtain ⟨runs, hlen, hjoin, hmap, hprops⟩ :=
        rootsLoop_sound (w * w) (w * w) pr.1 roots h2
      refine ⟨?_, ?_, pr.1, pr.2, runs, hcs, hnot, hjoin, hlen, hmap, hprops⟩
      · rw [hmap, List.length_map, hlen]
      · intro r hr
        rw [hmap] at hr
        rcases List.mem_map.mp hr with ⟨run, hrun, hval⟩
        rw [← hval]
        exact (hprops run hrun).2.2.2
  · intro hc
    unfold clue_values_within_cap at hc
    rcases hs : splitSem cs with _ | pr
    · rw [hs] at hc
      simp at hc
    · rw [hs] at hc
      have h2 : clueLoop pr.2 = true := hc
      obtain ⟨hcs, hnot⟩ := splitSem_some cs pr.1 pr.2 (by rw [hs])
      obtain ⟨segs, trailing, hjoin, hprops⟩ :=
        clueLoop_sound pr.2.length pr.2 le_rfl h2
      exact ⟨pr.1, pr.2, segs, trailing, hcs, hnot, hjoin, hprops⟩
  · intro roots ops hp
    unfold parse_ops at hp
    rcases hs : splitSem cs with _ | pr
    · rw [hs] at hp
      simp at hp
    · rw [hs] at hp
      have h2 : opsLoop (selfRoots roots).length pr.2 = some ops := hp
      obtain ⟨hcs, hnot⟩ := splitSem_some cs pr.1 pr.2 (by rw [hs])
      obtain ⟨segs, rest, hjoin, hlen, hmap, hprops⟩ :=
        opsLoop_sound (selfRoots roots).length pr.2 ops h2
      exact ⟨pr.1, pr.2, segs, rest, hcs, hjoin, hlen, hmap,
        fun s hs2 => ⟨(hprops s hs2).1, (hprops s hs2).2.1⟩⟩

/-- Concrete instance of `decode_wellformed_sound`: a string without
`';'` is rejected by the root parser, and the successful parse of
`demoDesc` indeed returns the nine in-range roots. -/
theorem decode_wellformed_sound_inst :
    parse_root_indices 3 ("abc".data) = none ∧
    ([0, 1, 2, 3, 4, 5, 6, 7, 8] : List Nat).length = 3 * 3 := by
  constructor
  · exact ((decode_wellformed_sound 3 ("abc".data)).1 (by decide)).1
  · exact ((decode_wellformed_sound 3 demoDesc).2.1
      [0, 1, 2, 3, 4, 5, 6, 7, 8] (by decide)).1

/-- C3: the clean-failure claim fails on the code at root tokens that
overflow `int`.  The token `4294967296` denotes 2^32 — far outside
`[0, 9)` for a 3×3 grid — yet `val = val * 10 + (*p - '0')` overflows
(undefined behavior in C; two's-complement wraparound on the reference
platforms), the wrapped value 0 slips past the `val < 0` guard, and
`parse_root_indices` accepts the descriptor with that token decoded as
root 0 instead of returning false. -/
theorem C3_root_overflow_accepted :
    digitRunValue ("4294967296".data) = 4294967296 ∧
    3 * 3 ≤ digitRunValue ("4294967296".data) ∧
    parse_root_indices 3 overflowDesc = some [0, 1, 2, 3, 4, 5, 6, 7, 8] ∧
    clue_values_within_cap overflowDesc = true := by
  refine ⟨by decide, by decide, by decide, by decide⟩
